import Mathlib

/-
Verification of the Metrodle SP core logic: a shallow embedding of the
station data model, FNV-1a daily selection, guess-evaluation state machine,
stats accumulation, line-knowledge derivation, predictive keyboard filter
and the BFS distance engine, with theorems settling the specification
claims against these definitions.

Strings of the program are modelled as Lean `String` where only identity
matters (ids, date keys) and as `List Char` where character-level
processing matters (station names, user input).  JavaScript's 32-bit
integer semantics are modelled with `Nat` and explicit `% 2^32`.
-/

namespace Metrodle

/-- Combining acute accent U+0301, produced by NFD decomposition. -/
def combAcute : Char := Char.ofNat 0x301

/-- Combining grave accent U+0300. -/
def combGrave : Char := Char.ofNat 0x300

/-- Combining circumflex U+0302. -/
def combCirc : Char := Char.ofNat 0x302

/-- Combining tilde U+0303. -/
def combTilde : Char := Char.ofNat 0x303

/-- Combining diaeresis U+0308. -/
def combDiaer : Char := Char.ofNat 0x308

/-- Combining cedilla U+0327. -/
def combCedilla : Char := Char.ofNat 0x327

/-- Models the JavaScript built-in `String.prototype.normalize('NFD')` at the
character level, for the precomposed Latin-1 letters that occur in the
station roster (Portuguese accents); characters outside the table are
already NFD-normal and map to themselves. -/
def nfdChar (c : Char) : List Char :=
  match c with
  | 'á' => ['a', combAcute]
  | 'à' => ['a', combGrave]
  | 'â' => ['a', combCirc]
  | 'ã' => ['a', combTilde]
  | 'é' => ['e', combAcute]
  | 'ê' => ['e', combCirc]
  | 'í' => ['i', combAcute]
  | 'ó' => ['o', combAcute]
  | 'ô' => ['o', combCirc]
  | 'õ' => ['o', combTilde]
  | 'ú' => ['u', combAcute]
  | 'ü' => ['u', combDiaer]
  | 'ç' => ['c', combCedilla]
  | 'Á' => ['A', combAcute]
  | 'À' => ['A', combGrave]
  | 'Â' => ['A', combCirc]
  | 'Ã' => ['A', combTilde]
  | 'É' => ['E', combAcute]
  | 'Ê' => ['E', combCirc]
  | 'Í' => ['I', combAcute]
  | 'Ó' => ['O', combAcute]
  | 'Ô' => ['O', combCirc]
  | 'Õ' => ['O', combTilde]
  | 'Ú' => ['U', combAcute]
  | 'Ü' => ['U', combDiaer]
  | 'Ç' => ['C', combCedilla]
  | _ => [c]

/-- Membership in the combining-diacritical-marks block, the regex
range `[̀-ͯ]` of `logic.normalize` and `keyboard.normalize`. -/
def isCombiningMark (c : Char) : Bool :=
  0x300 ≤ c.toNat && c.toNat ≤ 0x36f

/-- Models the JavaScript built-in `String.prototype.toLowerCase` on a single
character, for ASCII and the Latin-1 uppercase letters (both ranges map to
their lowercase form 32 code points higher; U+00D7 is the multiplication
sign and is excluded). -/
def jsToLowerChar (c : Char) : Char :=
  if ('A' ≤ c ∧ c ≤ 'Z') ∨ (0xC0 ≤ c.toNat ∧ c.toNat ≤ 0xDE ∧ c.toNat ≠ 0xD7) then
    Char.ofNat (c.toNat + 32)
  else c

/-- Models `String.prototype.toLowerCase` over a whole string. -/
def jsToLower (s : List Char) : List Char := s.map jsToLowerChar

/-- Whitespace recognised by the model of `String.prototype.trim`. -/
def isWsChar (c : Char) : Bool :=
  c = ' ' ∨ c = '\t' ∨ c = '\n' ∨ c = '\r'

/-- Models `String.prototype.trim`: strip leading and trailing whitespace. -/
def jsTrim (s : List Char) : List Char :=
  ((s.dropWhile isWsChar).reverse.dropWhile isWsChar).reverse

/-- Embeds `normalize` of src/logic.ts and src/keyboard.ts:
NFD-decompose, strip combining marks U+0300..U+036F, lowercase. -/
def normalize (s : List Char) : List Char :=
  ((s.flatMap nfdChar).filter (fun c => !(isCombiningMark c))).map jsToLowerChar

/-- Embeds `hashString` of src/logic.ts: the FNV-1a loop
`h ^= charCode; h = Math.imul(h, 16777619)` over 32-bit integers, started
from 2166136261; `Math.imul` keeps the low 32 bits, modelled by `% 2^32`. -/
def hashString (s : String) : Nat :=
  s.data.foldl (fun h c => ((h ^^^ c.toNat) * 16777619) % 4294967296) 2166136261

/-- FNV-1a 32-bit over a byte/code sequence, written from its standard
description (offset basis 2166136261, prime 16777619, xor then multiply);
used to compare `hashString` against the algorithm the spec names. -/
def fnv1a32 (codes : List Nat) : Nat :=
  codes.foldl (fun h b => ((h ^^^ b) * 16777619) % 4294967296) 2166136261

/-- Embeds the `Station` record of src/stationLoader.ts (the fields the
core logic reads; optional coordinates are not consumed by any claim). -/
structure Station where
  id : String
  name : List Char
  lines : List String
  wikidataId : String
deriving DecidableEq, Repr

/-- Embeds `pickDailyStation` of src/logic.ts: index the roster by the hash
of the fixed prefix plus the date key, modulo the roster length.  The
JavaScript expression `stations[idx]` is `undefined` on an empty roster,
modelled by `Option`. -/
def pickDailyStation (dateKey : String) (stations : List Station) : Option Station :=
  stations[hashString (("metrodlesp:") ++ dateKey) % stations.length]?

/-- Game status of src/state.ts: `'playing' | 'won' | 'lost'`. -/
inductive GStatus where
  | playing
  | won
  | lost
deriving DecidableEq, Repr

/-- Embeds the persisted `GameState` record of src/state.ts. -/
structure GameState where
  solutionId : String
  dateKey : String
  guesses : List String
  status : GStatus
deriving DecidableEq, Repr

/-- Embeds the persisted `Stats` record of src/state.ts; `lastDate` is an
optional field, absent on fresh statistics. -/
structure Stats where
  played : Nat
  wins : Nat
  streak : Nat
  best : Nat
  lastDate : Option String
  dist : List Nat
deriving DecidableEq, Repr

/-- User-facing outcome of a guess submission, standing for the hint
message set by `onSubmitGuess` in src/index.ts (station not found,
duplicate guess, game already finished, or an accepted guess). -/
inductive Signal where
  | notFound
  | duplicate
  | finished
  | accepted
deriving DecidableEq, Repr

/-- Embeds `stationByName` of src/index.ts: first station whose lowercased
name equals the trimmed, lowercased input. -/
def stationByName (nm : List Char) (stations : List Station) : Option Station :=
  let n := jsToLower (jsTrim nm)
  stations.find? (fun s => jsToLower s.name == n)

/-- Models `hay.includes(needle)` on JavaScript strings: some suffix of
`hay` has `needle` as a prefix. -/
def listContains (hay needle : List Char) : Bool :=
  hay.tails.any (fun t => needle.isPrefixOf t)

/-- Embeds the guess resolution of `onSubmitGuess` in src/index.ts:
`stationByName(name) || STATIONS.find(s =>
s.name.toLowerCase().includes(name.trim().toLowerCase()))`. -/
def resolveGuess (nm : List Char) (stations : List Station) : Option Station :=
  match stationByName nm stations with
  | some s => some s
  | none => stations.find? (fun s => listContains (jsToLower s.name) (jsToLower (jsTrim nm)))

/-- Embeds `endGame` of src/index.ts: set the final status, and update the
statistics once per date key, guarded by `stats.lastDate !== gameState.dateKey`. -/
def endGame (won : Bool) (gs : GameState) (st : Stats) : GameState × Stats :=
  let gs1 := { gs with status := if won then GStatus.won else GStatus.lost }
  if st.lastDate ≠ some gs.dateKey then
    let st1 := { st with played := st.played + 1, lastDate := some gs.dateKey }
    if won then
      let st2 := { st1 with wins := st1.wins + 1, streak := st1.streak + 1 }
      let st3 := { st2 with best := max st2.best st2.streak }
      let attempts := gs.guesses.length
      let st4 :=
        if 1 ≤ attempts ∧ attempts ≤ 6 then
          { st3 with dist := st3.dist.set (attempts - 1) (st3.dist.getD (attempts - 1) 0 + 1) }
        else st3
      (gs1, st4)
    else (gs1, { st1 with streak := 0 })
  else (gs1, st)

/-- Embeds `checkIfEnded` of src/index.ts: the game is won when any guess
id equals the solution id (the looked-up solution's `id` field is the
state's `solutionId` by the lookup predicate), else lost when six or more
guesses were made. -/
def checkIfEnded (gs : GameState) (st : Stats) : GameState × Stats :=
  let wonNow := gs.guesses.any (fun id => id == gs.solutionId)
  if wonNow then endGame true gs st
  else if 6 ≤ gs.guesses.length then endGame false gs st
  else (gs, st)

/-- Embeds `onSubmitGuess` of src/index.ts: resolve the candidate name,
reject (leaving the state untouched) on no match, duplicate id, or a
finished game — in this order — otherwise append the id and run
`checkIfEnded`. -/
def onSubmitGuess (nm : List Char) (stations : List Station) (gs : GameState) (st : Stats) :
    GameState × Stats × Signal :=
  match resolveGuess nm stations with
  | none => (gs, st, Signal.notFound)
  | some m =>
    if gs.guesses.contains m.id then (gs, st, Signal.duplicate)
    else if gs.status ≠ GStatus.playing then (gs, st, Signal.finished)
    else
      let gs1 := { gs with guesses := gs.guesses ++ [m.id] }
      let p := checkIfEnded gs1 st
      (p.1, p.2, Signal.accepted)

/-- Fresh game state for a date key, as built by `loadState` in
src/state.ts: no guesses, status playing. -/
def freshState (solId dateKey : String) : GameState :=
  { solutionId := solId, dateKey := dateKey, guesses := [], status := GStatus.playing }

/-- Fresh statistics, as built by `loadStats` in src/state.ts. -/
def freshStats : Stats :=
  { played := 0, wins := 0, streak := 0, best := 0, lastDate := none, dist := [0, 0, 0, 0, 0, 0] }

/-- Runs a sequence of guess submissions through `onSubmitGuess`,
threading game state and statistics. -/
def runGuesses (stations : List Station) (names : List (List Char)) (gs : GameState) (st : Stats) :
    GameState × Stats :=
  names.foldl (fun p nm =>
    let r := onSubmitGuess nm stations p.1 p.2
    (r.1, r.2.1)) (gs, st)

/-- State invariant maintained by the guess state machine: no duplicate
guesses, at most six guesses, and strictly fewer than six while playing. -/
def GameInv (gs : GameState) : Prop :=
  gs.guesses.Nodup ∧ gs.guesses.length ≤ 6 ∧ (gs.status = GStatus.playing → gs.guesses.length < 6)

/-- Inner loop of `getKnownLineKnowledge` in src/logic.ts for one guessed
station: each of its lines goes to `confirmed` when the solution carries
it, else to `eliminated`.  The pair is (eliminated, confirmed), in the
declaration order of the source. -/
def knowledgeFold (solLines : List String) (p : Finset String × Finset String) (g : Station) :
    Finset String × Finset String :=
  g.lines.foldl (fun q l => if l ∈ solLines then (q.1, insert l q.2) else (insert l q.1, q.2)) p

/-- Embeds `getKnownLineKnowledge` of src/logic.ts.  The source looks up
the solution and each guessed id with a non-null assertion
(`stations.find(...)!`); a failed lookup is a runtime fault, modelled by
`none`. -/
def getKnownLineKnowledge (gs : GameState) (stations : List Station) :
    Option (Finset String × Finset String) :=
  match stations.find? (fun s => s.id == gs.solutionId) with
  | none => none
  | some solution =>
    match gs.guesses.mapM (fun gid => stations.find? (fun s => s.id == gid)) with
    | none => none
    | some gl => some (gl.foldl (knowledgeFold solution.lines) (∅, ∅))

/-- Per-name step of `nextAllowedChars` in src/keyboard.ts, on an already
normalized name: with an empty prefix, admit the first character of a
non-empty name; otherwise, when the name starts with the prefix and is
strictly longer, admit the character at the prefix length (indexing is
modelled by `drop` followed by pattern matching on the head). -/
def nextCharStep (pfx : List Char) (allowed : Finset Char) (nname : List Char) : Finset Char :=
  if pfx.length = 0 then
    match nname with
    | [] => allowed
    | c :: _ => insert c allowed
  else if pfx.isPrefixOf nname then
    if pfx.length < nname.length then
      match nname.drop pfx.length with
      | [] => allowed
      | c :: _ => insert c allowed
    else allowed
  else allowed

/-- Embeds `nextAllowedChars` of src/keyboard.ts (the variant taking the
station roster and the keyword list): normalize the trimmed input, then
collect next characters from every station name and from every keyword
whose normalization is non-empty. -/
def nextAllowedChars (prefixRaw : List Char) (stations : List Station)
    (keywords : List (List Char)) : Finset Char :=
  let pfx := normalize (jsTrim prefixRaw)
  let afterStations := stations.foldl (fun a s => nextCharStep pfx a (normalize s.name)) ∅
  keywords.foldl (fun a kw =>
    let nkw := normalize kw
    if nkw = [] then a else nextCharStep pfx a nkw) afterStations

/-- Models the JavaScript `<` comparison of strings on their code-unit
sequences: lexicographic, shorter prefix first. -/
def jsStrLtChars : List Char → List Char → Bool
  | [], [] => false
  | [], _ :: _ => true
  | _ :: _, [] => false
  | a :: as, b :: bs =>
    if a.toNat < b.toNat then true
    else if b.toNat < a.toNat then false
    else jsStrLtChars as bs

/-- Models the JavaScript `a < b` on strings. -/
def jsStrLt (a b : String) : Bool := jsStrLtChars a.data b.data

/-- Embeds `makeInterchangeKey` of src/stationLoader.ts: order the two ids
lexicographically (JavaScript string comparison) and join with a dash. -/
def makeInterchangeKey (a b : String) : String :=
  if jsStrLt a b then a ++ ("-") ++ b else b ++ ("-") ++ a

/-- Adjacency graph of src/stationLoader.ts (`Map` from wikidata id to the
insertion-ordered neighbor set), modelled as an association list. -/
def Graph := List (String × List String)

/-- Models `graph.get(v)`. -/
def graphGet (g : Graph) (v : String) : Option (List String) :=
  (g.find? (fun p => p.1 == v)).map (fun p => p.2)

/-- Models `dist.get(v)` on the distance map. -/
def distGet (d : List (String × Nat)) (v : String) : Option Nat :=
  (d.find? (fun p => p.1 == v)).map (fun p => p.2)

/-- Models `dist.has(v)`. -/
def distHas (d : List (String × Nat)) (v : String) : Bool :=
  (distGet d v).isSome

/-- Loop body and while-loop of `bfsDistances` in src/stationLoader.ts,
with explicit fuel standing for the loop's iteration count: pop the front
of the queue, and for each neighbor not yet labelled, label it with the
parent's distance when the pair is an interchange and distance + 1
otherwise, pushing it to the back of the queue (`q.push`). -/
def bfsAux (graph : Graph) (inter : List String) :
    Nat → List String → List (String × Nat) → List (String × Nat)
  | 0, _, dist => dist
  | _ + 1, [], dist => dist
  | fuel + 1, cur :: q, dist =>
    match distGet dist cur with
    | none => bfsAux graph inter fuel q dist
    | some d =>
      match graphGet graph cur with
      | none => bfsAux graph inter fuel q dist
      | some nbrs =>
        let p := nbrs.foldl
          (fun (p : List String × List (String × Nat)) n =>
            if distHas p.2 n then p
            else
              let isInter := inter.contains (makeInterchangeKey cur n)
              (p.1 ++ [n], p.2 ++ [(n, if isInter then d else d + 1)]))
          (q, dist)
        bfsAux graph inter fuel p.1 p.2

/-- Embeds `bfsDistances` of src/stationLoader.ts.  Each vertex is pushed
at most once (the push is guarded by absence from `dist`), so the while
loop runs at most `1 + total neighbor-list length` iterations; the fuel
`2 + total neighbor-list length` therefore never runs out and `bfsAux`
computes exactly the loop's result. -/
def bfsDistances (start : String) (graph : Graph) (inter : List String) :
    List (String × Nat) :=
  bfsAux graph inter (2 + (graph.map (fun p => p.2.length)).sum) [start] [(start, 0)]

/-- Modelled from the spec: the cost of a concrete walk through the graph,
where traversing a hop edge costs 1 and traversing an interchange edge
(a pair in the canonical interchange-key set) costs 0; `none` when two
consecutive vertices are not adjacent. -/
def pathCost (graph : Graph) (inter : List String) : List String → Option Nat
  | [] => none
  | [_] => some 0
  | a :: b :: rest =>
    match graphGet graph a with
    | none => none
    | some nbrs =>
      if nbrs.contains b then
        (pathCost graph inter (b :: rest)).map
          (fun c => c + (if inter.contains (makeInterchangeKey a b) then 0 else 1))
      else none

/-- Embeds the `Line` record of src/lines.ts. -/
structure Line where
  id : String
  name : List Char
  color : String
deriving DecidableEq, Repr

/-- Embeds the `LINES` catalog of src/lines.ts, in declaration order
(the iteration order of `Object.keys` on the record). -/
def LINES : List Line :=
  [⟨("1"), ("Linha 1-Azul").toList, ("#0033a0")⟩,
   ⟨("2"), ("Linha 2-Verde").toList, ("#00a651")⟩,
   ⟨("3"), ("Linha 3-Vermelha").toList, ("#ee3124")⟩,
   ⟨("4"), ("Linha 4-Amarela").toList, ("#ffc20e")⟩,
   ⟨("5"), ("Linha 5-Lilás").toList, ("#7f3f98")⟩,
   ⟨("7"), ("Linha 7-Rubi").toList, ("#c21807")⟩,
   ⟨("8"), ("Linha 8-Diamante").toList, ("#8e8e8e")⟩,
   ⟨("9"), ("Linha 9-Esmeralda").toList, ("#0f9d58")⟩,
   ⟨("10"), ("Linha 10-Turquesa").toList, ("#30c6d9")⟩,
   ⟨("11"), ("Linha 11-Coral").toList, ("#ff7f50")⟩,
   ⟨("12"), ("Linha 12-Safira").toList, ("#26619c")⟩,
   ⟨("13"), ("Linha 13-Jade").toList, ("#00a86b")⟩,
   ⟨("15"), ("Linha 15-Prata").toList, ("#c0c0c0")⟩]

/-- Models `map.set(k, v)` on a JavaScript `Map` kept as an association
list: an existing key keeps its insertion position and has its value
replaced, a new key is appended. -/
def mapSet (m : List (String × Station)) (k : String) (v : Station) :
    List (String × Station) :=
  if m.any (fun p => p.1 == k) then m.map (fun p => if p.1 == k then (p.1, v) else p)
  else m ++ [(k, v)]

/-- Station order `a.name <= b.name` used by the candidate sort.  The
source compares with `localeCompare`, whose collation is a runtime
collaborator; it is modelled by code-point order. -/
def nameLe (a b : Station) : Bool := !(jsStrLtChars b.name a.name)

/-- Stable insertion into a list sorted by `nameLe`. -/
def insertByName (s : Station) : List Station → List Station
  | [] => [s]
  | a :: t => if nameLe a s then a :: insertByName s t else s :: a :: t

/-- Models `[...].sort((a, b) => a.name.localeCompare(b.name))`: a
comparison sort by station name (see `nameLe`). -/
def sortByName : List Station → List Station
  | [] => []
  | a :: t => insertByName a (sortByName t)

/-- Embeds `searchCandidates` of src/logic.ts: normalize the trimmed
query; collect stations whose normalized name contains it, and stations
on any line whose normalized name or id contains it; de-duplicate by
station id in first-appearance order; sort by name. -/
def searchCandidates (query : List Char) (stations : List Station) (lines : List Line) :
    List Station :=
  let qn := normalize (jsTrim query)
  if qn = [] then []
  else
    let byName := stations.filter (fun s => listContains (normalize s.name) qn)
    let lineHits := (lines.filter (fun l =>
      listContains (normalize l.name) qn || listContains (normalize l.id.data) qn)).map
        (fun l => l.id)
    let byLine := stations.filter (fun s => s.lines.any (fun l => lineHits.contains l))
    let m := (byName ++ byLine).foldl (fun m s => mapSet m s.id s) []
    sortByName (m.map (fun p => p.2))

/-- Concrete roster entry: Ana Rosa, on lines 1 and 2. -/
def stAna : Station :=
  { id := ("ANR"), name := ("Ana Rosa").toList, lines := [("1"), ("2")], wikidataId := ("QANR") }

/-- Concrete roster entry: Sé, on lines 1 and 3. -/
def stSe : Station :=
  { id := ("PSE"), name := ("Sé").toList, lines := [("1"), ("3")], wikidataId := ("QPSE") }

/-- Concrete roster entry: Tatuapé, on line 3. -/
def stTat : Station :=
  { id := ("TAT"), name := ("Tatuapé").toList, lines := [("3")], wikidataId := ("QTAT") }

/-- Concrete roster entry: São Paulo, used by the predictive-filter scenario. -/
def stSaoPaulo : Station :=
  { id := ("SPA"), name := ("São Paulo").toList, lines := [("7")], wikidataId := ("QSPA") }

/-- Concrete three-station roster used by witnesses. -/
def rosterW : List Station := [stAna, stSe, stTat]

/-- Concrete playing state whose solution is Ana Rosa. -/
def gsPlay : GameState := freshState ("ANR") ("2025-10-12")

/-- Concrete playing state with one prior guess, used for the duplicate case. -/
def gsDup : GameState :=
  { solutionId := ("PSE"), dateKey := ("2025-10-12"), guesses := [("ANR")],
    status := GStatus.playing }

/-- Concrete won game with three guesses, used for the statistics witness. -/
def gsWon : GameState :=
  { solutionId := ("PSE"), dateKey := ("2025-10-12"), guesses := [("ANR"), ("TAT"), ("PSE")],
    status := GStatus.playing }

/-- Concrete state over the singleton Sé roster, for the diacritics claim. -/
def gsSe : GameState := freshState ("PSE") ("2025-10-12")

/-- Failing graph for the distance engine: hop edges S–A and A–C, then
interchange edges S–B and B–C, inserted in the order `loadAdjacencyGraph`
would produce (adjacencies before interchanges). -/
def gBug : Graph :=
  [(("QS"), [("QA"), ("QB")]),
   (("QA"), [("QS"), ("QC")]),
   (("QC"), [("QA"), ("QB")]),
   (("QB"), [("QS"), ("QC")])]

/-- Canonical interchange keys of the failing graph: S–B and B–C. -/
def interBug : List String :=
  [makeInterchangeKey ("QS") ("QB"), makeInterchangeKey ("QB") ("QC")]

theorem hashString_eq_fnv1a32 (s : String) :
    hashString s = fnv1a32 (s.data.map Char.toNat) := by
  simp [hashString, fnv1a32, List.foldl_map]

theorem pickDaily_singleton (d : String) (s : Station) :
    pickDailyStation d [s] = some s := by
  simp [pickDailyStation, Nat.mod_one]

/-- C8: for every non-empty roster and date key, `pickDailyStation` returns
the roster element at the FNV-1a 32-bit hash of the prefix plus the key,
modulo the roster length; the selection is deterministic. -/
theorem pickDaily_fnv_spec (d : String) (ss : List Station) (h : ss ≠ []) :
    pickDailyStation d ss =
      some (ss.get ⟨fnv1a32 (((("metrodlesp:") ++ d)).data.map Char.toNat) % ss.length,
        Nat.mod_lt _ (List.length_pos.mpr h)⟩) ∧
    pickDailyStation d ss = pickDailyStation d ss := by
  refine ⟨?_, rfl⟩
  unfold pickDailyStation
  rw [← hashString_eq_fnv1a32]
  rw [List.getElem?_eq_getElem (Nat.mod_lt _ (List.length_pos.mpr h))]
  simp [List.get_eq_getElem]

/-- Closed witness for C8: the selection over a singleton roster is the
single station (hash modulo 1 is index 0). -/
theorem pickDaily_fnv_spec_witness :
    pickDailyStation ("2025-10-12") [stSe] = some stSe := by
  have h := (pickDaily_fnv_spec ("2025-10-12") [stSe] (by simp)).1
  simpa [Nat.mod_one] using h

/-- C2 counterexample: no date key is hard-coded to a fixed station — for
every date key the selection depends on the roster, so there is no
override entry checked before the hash. -/
theorem pickDaily_no_override :
    ¬ ∃ (d : String) (t : Station), ∀ ss : List Station, ss ≠ [] → pickDailyStation d ss = some t := by
  rintro ⟨d, t, h⟩
  have a1 : some t = some stAna := (h [stAna] (by simp)).symm.trans (pickDaily_singleton d stAna)
  have a2 : some t = some stSe := (h [stSe] (by simp)).symm.trans (pickDaily_singleton d stSe)
  have : stAna = stSe := Option.some.inj (a1.symm.trans a2)
  exact absurd this (by decide)

/-- C2 amended: `pickDailyStation` contains no date-keyed override; for
every date key and non-empty roster it returns exactly the hash-selected
element of the roster. -/
theorem pickDaily_always_hash (d : String) (ss : List Station) (h : ss ≠ []) :
    pickDailyStation d ss =
      some (ss.get ⟨hashString ((("metrodlesp:") ++ d)) % ss.length,
        Nat.mod_lt _ (List.length_pos.mpr h)⟩) := by
  unfold pickDailyStation
  rw [List.getElem?_eq_getElem (Nat.mod_lt _ (List.length_pos.mpr h))]
  simp [List.get_eq_getElem]

/-- Closed witness for the amended C2: concrete hash-based selection on a
singleton roster. -/
theorem pickDaily_always_hash_witness :
    pickDailyStation ("2025-10-13") [stAna] = some stAna := by
  have h := pickDaily_always_hash ("2025-10-13") [stAna] (by simp)
  simpa [Nat.mod_one] using h

/-- C1: evaluation of `bfsDistances` at the failing graph.  The code
labels vertex QC with distance 2, yet QC is joined to the start QS by the
walk QS–QB–QC whose edges are both interchanges, of total cost 0: the
returned labels are not the 0-1 shortest distances (and a vertex connected
to the start purely via interchange edges does not get 0), because 0-cost
discoveries are pushed to the back of the queue, not the front. -/
theorem bfs_failing_eval :
    distGet (bfsDistances ("QS") gBug interBug) ("QC") = some 2 ∧
    pathCost gBug interBug [("QS"), ("QB"), ("QC")] = some 0 ∧
    interBug.contains (makeInterchangeKey ("QS") ("QB")) = true ∧
    interBug.contains (makeInterchangeKey ("QB") ("QC")) = true ∧
    distGet (bfsDistances ("QS") gBug interBug) ("QS") = some 0 ∧
    distGet (bfsDistances ("QS") gBug interBug) ("QB") = some 0 := by
  decide

theorem endGame_fst (won : Bool) (gs : GameState) (st : Stats) :
    (endGame won gs st).1 = { gs with status := if won then GStatus.won else GStatus.lost } := by
  by_cases hd : st.lastDate = some gs.dateKey
  · cases won <;> simp [endGame, hd]
  · cases won <;> simp [endGame, hd, apply_ite]

/-- C5: for every statistics record whose stored last-counted date differs
from the game's date key, `endGame` updates the statistics exactly once —
it increments played, stores the date key, on a win increments wins and
streak, raises best to max(best, streak) and bumps the histogram bucket of
the attempt count, on a loss zeroes the streak — and every invocation
whose statistics already carry the game's date key leaves them unchanged. -/
theorem endGame_stats_once (won : Bool) (gs : GameState) (st : Stats)
    (hfirst : st.lastDate ≠ some gs.dateKey) :
    ((endGame won gs st).2.played = st.played + 1 ∧
      (endGame won gs st).2.lastDate = some gs.dateKey) ∧
    (won = true →
      (endGame won gs st).2.wins = st.wins + 1 ∧
      (endGame won gs st).2.streak = st.streak + 1 ∧
      (endGame won gs st).2.best = max st.best (st.streak + 1) ∧
      (1 ≤ gs.guesses.length ∧ gs.guesses.length ≤ 6 →
        (endGame won gs st).2.dist =
          st.dist.set (gs.guesses.length - 1) (st.dist.getD (gs.guesses.length - 1) 0 + 1))) ∧
    (won = false → (endGame won gs st).2.streak = 0) ∧
    (∀ (won₂ : Bool) (gs₂ : GameState) (st₂ : Stats), st₂.lastDate = some gs₂.dateKey →
      (endGame won₂ gs₂ st₂).2 = st₂) := by
  refine ⟨⟨?_, ?_⟩, ?_, ?_, ?_⟩
  · cases won <;> simp [endGame, hfirst, apply_ite]
  · cases won <;> simp [endGame, hfirst, apply_ite]
  · intro hw
    subst hw
    refine ⟨by simp [endGame, hfirst, apply_ite], by simp [endGame, hfirst, apply_ite],
      by simp [endGame, hfirst, apply_ite], ?_⟩
    intro h16
    simp [endGame, hfirst, h16]
  · intro hw
    subst hw
    simp [endGame, hfirst]
  · intro won₂ gs₂ st₂ h₂
    cases won₂ <;> simp [endGame, h₂]

/-- Closed witness for C5: finishing a three-guess win on fresh statistics
increments played to 1 and bumps histogram bucket 3 (index 2). -/
theorem endGame_stats_once_witness :
    (endGame true gsWon freshStats).2.played = freshStats.played + 1 ∧
    (endGame true gsWon freshStats).2.dist =
      freshStats.dist.set 2 (freshStats.dist.getD 2 0 + 1) ∧
    (endGame true gsWon ((endGame true gsWon freshStats).2)).2 = (endGame true gsWon freshStats).2 := by
  have h := endGame_stats_once true gsWon freshStats (by decide)
  refine ⟨h.1.1, ?_, ?_⟩
  · have h2 := (h.2.1 rfl).2.2.2 (by decide)
    simpa using h2
  · exact h.2.2.2 true gsWon ((endGame true gsWon freshStats).2) (by rw [h.1.2])

theorem checkIfEnded_fst (gs : GameState) (st : Stats) :
    (checkIfEnded gs st).1 =
      (if gs.guesses.any (fun id => id == gs.solutionId) then { gs with status := GStatus.won }
       else if 6 ≤ gs.guesses.length then { gs with status := GStatus.lost }
       else gs) := by
  unfold checkIfEnded
  by_cases hw : gs.guesses.any (fun id => id == gs.solutionId)
  · simp [hw, endGame_fst]
  · by_cases hl : 6 ≤ gs.guesses.length <;> simp [hw, hl, endGame_fst]

/-- C3: an accepted guess that matches the solution id makes the status
won regardless of the attempt count; an accepted non-winning guess that
brings the count to exactly six makes it lost; any other accepted guess
leaves it playing. -/
theorem submit_transitions (nm : List Char) (stations : List Station) (gs : GameState) (st : Stats)
    (m : Station)
    (hres : resolveGuess nm stations = some m)
    (hdup : gs.guesses.contains m.id = false)
    (hplay : gs.status = GStatus.playing)
    (hlen : gs.guesses.length < 6) :
    (m.id = gs.solutionId → (onSubmitGuess nm stations gs st).1.status = GStatus.won) ∧
    (m.id ≠ gs.solutionId → gs.solutionId ∉ gs.guesses →
      ((gs.guesses.length + 1 = 6 → (onSubmitGuess nm stations gs st).1.status = GStatus.lost) ∧
       (gs.guesses.length + 1 < 6 → (onSubmitGuess nm stations gs st).1.status = GStatus.playing))) := by
  set gs1 : GameState := { gs with guesses := gs.guesses ++ [m.id] } with hgs1
  have hdup' : m.id ∉ gs.guesses := by simpa using hdup
  have hstep : (onSubmitGuess nm stations gs st).1 = (checkIfEnded gs1 st).1 := by
    simp only [onSubmitGuess, hres]
    rw [hgs1, hplay]
    simp [hdup']
  have hgl : gs1.guesses = gs.guesses ++ [m.id] := rfl
  have hgsol : gs1.solutionId = gs.solutionId := rfl
  rw [hstep, checkIfEnded_fst]
  constructor
  · intro hwin
    have hany : gs1.guesses.any (fun id => id == gs1.solutionId) = true := by
      rw [hgl, hgsol]
      simp [hwin]
    rw [if_pos hany]
  · intro hmiss hsol
    have hany : gs1.guesses.any (fun id => id == gs1.solutionId) = false := by
      rw [hgl, hgsol]
      simp only [List.any_append, List.any_cons, List.any_nil, Bool.or_false,
        Bool.or_eq_false_iff]
      constructor
      · rw [List.any_eq_false]
        intro x hx
        intro hxe
        have hx2 : x = gs.solutionId := by simpa using hxe
        exact hsol (hx2 ▸ hx)
      · simp [hmiss]
    have hnotwon : ¬ gs1.guesses.any (fun id => id == gs1.solutionId) = true := by
      simp [hany]
    constructor
    · intro h6
      have hb : 6 ≤ gs1.guesses.length := by
        rw [hgl]
        simp only [List.length_append, List.length_cons, List.length_nil]
        omega
      rw [if_neg hnotwon, if_pos hb]
    · intro h6
      have hb : ¬ 6 ≤ gs1.guesses.length := by
        rw [hgl]
        simp only [List.length_append, List.length_cons, List.length_nil]
        omega
      rw [if_neg hnotwon, if_neg hb]
      exact hplay

/-- Closed witness for C3: guessing the solution name Ana Rosa on a fresh
state ends the game as won. -/
theorem submit_transitions_witness :
    (onSubmitGuess (("ana rosa").toList) rosterW gsPlay freshStats).1.status = GStatus.won := by
  have h := submit_transitions (("ana rosa").toList) rosterW gsPlay freshStats stAna
    (by decide) (by decide) rfl (by decide)
  exact h.1 rfl

/-- C4: a candidate that resolves to no station, a duplicate resolved id,
or a non-playing status each reject the submission with the corresponding
signal and leave the game state and statistics completely unchanged; in
particular a duplicate guess never changes the guess count; resolution
fails exactly when no station name matches the trimmed lowercased input
exactly or by substring. -/
theorem submit_rejections (nm : List Char) (stations : List Station) (gs : GameState) (st : Stats) :
    (resolveGuess nm stations = none →
      onSubmitGuess nm stations gs st = (gs, st, Signal.notFound)) ∧
    (∀ m, resolveGuess nm stations = some m → gs.guesses.contains m.id = true →
      onSubmitGuess nm stations gs st = (gs, st, Signal.duplicate) ∧
      (onSubmitGuess nm stations gs st).1.guesses.length = gs.guesses.length) ∧
    (∀ m, resolveGuess nm stations = some m → gs.guesses.contains m.id = false →
      gs.status ≠ GStatus.playing →
      onSubmitGuess nm stations gs st = (gs, st, Signal.finished)) ∧
    (resolveGuess nm stations = none ↔
      ∀ s ∈ stations, ¬ jsToLower s.name = jsToLower (jsTrim nm) ∧
        listContains (jsToLower s.name) (jsToLower (jsTrim nm)) = false) := by
  refine ⟨?_, ?_, ?_, ?_⟩
  · intro h
    unfold onSubmitGuess
    rw [h]
  · intro m hm hdup
    have hdup' : m.id ∈ gs.guesses := by simpa using hdup
    have : onSubmitGuess nm stations gs st = (gs, st, Signal.duplicate) := by
      simp [onSubmitGuess, hm, hdup']
    exact ⟨this, by rw [this]⟩
  · intro m hm hdup hfin
    have hdup' : m.id ∉ gs.guesses := by simpa using hdup
    simp [onSubmitGuess, hm, hdup', hfin]
  · unfold resolveGuess stationByName
    constructor
    · intro h s hs
      cases hfind : stations.find? (fun s => jsToLower s.name == jsToLower (jsTrim nm)) with
      | some v => rw [hfind] at h; exact absurd h (by simp)
      | none =>
        rw [hfind] at h
        rw [List.find?_eq_none] at hfind h
        refine ⟨by simpa using hfind s hs, by simpa using h s hs⟩
    · intro h
      have h1 : stations.find? (fun s => jsToLower s.name == jsToLower (jsTrim nm)) = none := by
        rw [List.find?_eq_none]
        intro s hs
        simpa using (h s hs).1
      have h2 : stations.find?
          (fun s => listContains (jsToLower s.name) (jsToLower (jsTrim nm))) = none := by
        rw [List.find?_eq_none]
        intro s hs
        simpa using (h s hs).2
      rw [h1, h2]

/-- Closed witness for C4: an unresolvable name is rejected as not found,
and re-guessing an already guessed station is rejected as duplicate, both
leaving the state untouched. -/
theorem submit_rejections_witness :
    onSubmitGuess (("zzz").toList) rosterW gsPlay freshStats =
      (gsPlay, freshStats, Signal.notFound) ∧
    onSubmitGuess (("ana rosa").toList) rosterW gsDup freshStats =
      (gsDup, freshStats, Signal.duplicate) := by
  constructor
  · exact (submit_rejections (("zzz").toList) rosterW gsPlay freshStats).1 (by decide)
  · exact ((submit_rejections (("ana rosa").toList) rosterW gsDup freshStats).2.1 stAna
      (by decide) (by decide)).1

theorem submit_preserves_inv (nm : List Char) (stations : List Station) (gs : GameState)
    (st : Stats) (h : GameInv gs) : GameInv (onSubmitGuess nm stations gs st).1 := by
  obtain ⟨hnd, hle, hlt⟩ := h
  cases hres : resolveGuess nm stations with
  | none =>
    simp only [onSubmitGuess, hres]
    exact ⟨hnd, hle, hlt⟩
  | some m =>
    by_cases hdup : m.id ∈ gs.guesses
    · simp only [onSubmitGuess, hres]
      simp [hdup]
      exact ⟨hnd, hle, hlt⟩
    · by_cases hplay : gs.status = GStatus.playing
      · have hlen : gs.guesses.length < 6 := hlt hplay
        have hred : (onSubmitGuess nm stations gs st).1 =
            (checkIfEnded { gs with guesses := gs.guesses ++ [m.id] } st).1 := by
          simp only [onSubmitGuess, hres]
          simp [hdup, hplay]
        rw [hred, checkIfEnded_fst]
        have hnd2 : (gs.guesses ++ [m.id]).Nodup := by
          simp [List.nodup_append, hnd, hdup]
        have hle2 : (gs.guesses ++ [m.id]).length ≤ 6 := by
          simp only [List.length_append, List.length_cons, List.length_nil]
          omega
        split
        · exact ⟨hnd2, hle2, fun hc => by simp at hc⟩
        · split
          · exact ⟨hnd2, hle2, fun hc => by simp at hc⟩
          · rename_i h6
            exact ⟨hnd2, hle2, fun _ => Nat.lt_of_not_le h6⟩
      · simp only [onSubmitGuess, hres]
        simp [hdup, hplay]
        exact ⟨hnd, hle, hlt⟩

theorem runGuesses_preserves_inv (stations : List Station) (names : List (List Char)) :
    ∀ (gs : GameState) (st : Stats), GameInv gs → GameInv (runGuesses stations names gs st).1 := by
  induction names with
  | nil =>
    intro gs st h
    simpa [runGuesses] using h
  | cons n ns ih =>
    intro gs st h
    have h1 := submit_preserves_inv n stations gs st h
    simpa [runGuesses, List.foldl_cons] using
      ih (onSubmitGuess n stations gs st).1 (onSubmitGuess n stations gs st).2.1 h1

/-- C9: every state reachable from a fresh state (empty guess list, status
playing) through any sequence of guess submissions has at most six guesses
and no duplicate guessed ids. -/
theorem reachable_state_invariant (stations : List Station) (names : List (List Char))
    (solId dateKey : String) (st : Stats) :
    (runGuesses stations names (freshState solId dateKey) st).1.guesses.length ≤ 6 ∧
    (runGuesses stations names (freshState solId dateKey) st).1.guesses.Nodup := by
  have h := runGuesses_preserves_inv stations names (freshState solId dateKey) st
    ⟨List.nodup_nil, by simp [freshState], by simp [freshState]⟩
  exact ⟨h.2.1, h.1⟩

theorem mem_knowledgeFold (solLines : List String) (g : Station)
    (p : Finset String × Finset String) (l : String) :
    (l ∈ (knowledgeFold solLines p g).2 ↔ l ∈ p.2 ∨ (l ∈ g.lines ∧ l ∈ solLines)) ∧
    (l ∈ (knowledgeFold solLines p g).1 ↔ l ∈ p.1 ∨ (l ∈ g.lines ∧ l ∉ solLines)) := by
  unfold knowledgeFold
  generalize g.lines = lines
  induction lines generalizing p with
  | nil => simp
  | cons a as ih =>
    simp only [List.foldl_cons]
    by_cases ha : a ∈ solLines
    · rw [if_pos ha]
      have h1 := ih (p.1, insert a p.2)
      refine ⟨?_, ?_⟩
      · rw [h1.1]
        simp only [List.mem_cons, Finset.mem_insert]
        constructor
        · rintro (hh | hh)
          · rcases hh with rfl | hp2
            · exact Or.inr ⟨Or.inl rfl, ha⟩
            · exact Or.inl hp2
          · exact Or.inr ⟨Or.inr hh.1, hh.2⟩
        · rintro (hp2 | ⟨rfl | has, hsol⟩)
          · exact Or.inl (Or.inr hp2)
          · exact Or.inl (Or.inl rfl)
          · exact Or.inr ⟨has, hsol⟩
      · rw [h1.2]
        simp only [List.mem_cons]
        constructor
        · rintro (hp1 | hh)
          · exact Or.inl hp1
          · exact Or.inr ⟨Or.inr hh.1, hh.2⟩
        · rintro (hp1 | ⟨rfl | has, hnsol⟩)
          · exact Or.inl hp1
          · exact absurd ha hnsol
          · exact Or.inr ⟨has, hnsol⟩
    · rw [if_neg ha]
      have h1 := ih (insert a p.1, p.2)
      refine ⟨?_, ?_⟩
      · rw [h1.1]
        simp only [List.mem_cons]
        constructor
        · rintro (hp2 | hh)
          · exact Or.inl hp2
          · exact Or.inr ⟨Or.inr hh.1, hh.2⟩
        · rintro (hp2 | ⟨rfl | has, hsol⟩)
          · exact Or.inl hp2
          · exact absurd hsol ha
          · exact Or.inr ⟨has, hsol⟩
      · rw [h1.2]
        simp only [List.mem_cons, Finset.mem_insert]
        constructor
        · rintro (hh | hh)
          · rcases hh with rfl | hp1
            · exact Or.inr ⟨Or.inl rfl, ha⟩
            · exact Or.inl hp1
          · exact Or.inr ⟨Or.inr hh.1, hh.2⟩
        · rintro (hp1 | ⟨rfl | has, hnsol⟩)
          · exact Or.inl (Or.inr hp1)
          · exact Or.inl (Or.inl rfl)
          · exact Or.inr ⟨has, hnsol⟩

theorem mem_knowledgeFoldl (solLines : List String) (gl : List Station)
    (p : Finset String × Finset String) (l : String) :
    (l ∈ (gl.foldl (knowledgeFold solLines) p).2 ↔
      l ∈ p.2 ∨ ∃ g ∈ gl, l ∈ g.lines ∧ l ∈ solLines) ∧
    (l ∈ (gl.foldl (knowledgeFold solLines) p).1 ↔
      l ∈ p.1 ∨ ∃ g ∈ gl, l ∈ g.lines ∧ l ∉ solLines) := by
  induction gl generalizing p with
  | nil => simp
  | cons g gl ih =>
    simp only [List.foldl_cons]
    have h1 := ih (knowledgeFold solLines p g)
    have h2 := mem_knowledgeFold solLines g p l
    refine ⟨?_, ?_⟩
    · rw [h1.1, h2.1]
      simp only [List.mem_cons]
      constructor
      · rintro ((hp | hg) | ⟨g2, hg2, hl2⟩)
        · exact Or.inl hp
        · exact Or.inr ⟨g, Or.inl rfl, hg⟩
        · exact Or.inr ⟨g2, Or.inr hg2, hl2⟩
      · rintro (hp | ⟨g2, rfl | hg2, hl2⟩)
        · exact Or.inl (Or.inl hp)
        · exact Or.inl (Or.inr hl2)
        · exact Or.inr ⟨g2, hg2, hl2⟩
    · rw [h1.2, h2.2]
      simp only [List.mem_cons]
      constructor
      · rintro ((hp | hg) | ⟨g2, hg2, hl2⟩)
        · exact Or.inl hp
        · exact Or.inr ⟨g, Or.inl rfl, hg⟩
        · exact Or.inr ⟨g2, Or.inr hg2, hl2⟩
      · rintro (hp | ⟨g2, rfl | hg2, hl2⟩)
        · exact Or.inl (Or.inl hp)
        · exact Or.inl (Or.inr hl2)
        · exact Or.inr ⟨g2, hg2, hl2⟩

theorem mapM_perm_some {α β : Type} (f : α → Option β) {l₁ l₂ : List α} (hp : l₁.Perm l₂) :
    ∀ {r₂ : List β}, l₂.mapM f = some r₂ → ∃ r₁, l₁.mapM f = some r₁ ∧ r₁.Perm r₂ := by
  induction hp with
  | nil =>
    intro r₂ h
    exact ⟨r₂, h, List.Perm.refl r₂⟩
  | @cons x t₁ t₂ hperm ih =>
    intro r₂ h
    rw [List.mapM_cons] at h
    cases hf : f x with
    | none => rw [hf] at h; simp at h
    | some b =>
      rw [hf] at h
      cases hts : List.mapM f t₂ with
      | none =>
        rw [hts] at h
        simp at h
      | some bs =>
        rw [hts] at h
        simp only [Option.bind_eq_bind, Option.some_bind, Option.pure_def] at h
        obtain ⟨r₁, h₁, hperm₁⟩ := ih hts
        refine ⟨b :: r₁, ?_, ?_⟩
        · rw [List.mapM_cons, hf, h₁]
          rfl
        · have : r₂ = b :: bs := by
            cases h
            rfl
          rw [this]
          exact hperm₁.cons b
  | swap x y l =>
    intro r₂ h
    rw [List.mapM_cons] at h
    cases hfx : f x with
    | none => rw [hfx] at h; simp at h
    | some bx =>
      rw [hfx] at h
      simp only [Option.bind_eq_bind, Option.some_bind] at h
      rw [List.mapM_cons] at h
      cases hfy : f y with
      | none => rw [hfy] at h; simp at h
      | some bv =>
        rw [hfy] at h
        cases hts : List.mapM f l with
        | none =>
          rw [hts] at h
          simp at h
        | some bs =>
          rw [hts] at h
          simp only [Option.bind_eq_bind, Option.some_bind, Option.pure_def] at h
          refine ⟨bv :: bx :: bs, ?_, ?_⟩
          · rw [List.mapM_cons, hfy]
            simp only [Option.bind_eq_bind, Option.some_bind]
            rw [List.mapM_cons, hfx, hts]
            rfl
          · have : r₂ = bx :: bv :: bs := by
              cases h
              rfl
            rw [this]
            exact List.Perm.swap bx bv bs
  | trans h₁ h₂ ih₁ ih₂ =>
    intro r₂ h
    obtain ⟨rm, hm, hpm⟩ := ih₂ h
    obtain ⟨r₁, h₁e, hp₁⟩ := ih₁ hm
    exact ⟨r₁, h₁e, hp₁.trans hpm⟩

/-- C6: when the solution id and all guessed ids resolve in the roster,
`getKnownLineKnowledge` returns exactly the set of guessed lines present
in the solution's line set as confirmed and the set of guessed lines
absent from it as eliminated; the two sets are disjoint, and the result is
invariant under any permutation of the guess sequence. -/
theorem knowledge_spec (gs : GameState) (stations : List Station) (sol : Station)
    (gl : List Station)
    (hsol : stations.find? (fun s => s.id == gs.solutionId) = some sol)
    (hgl : gs.guesses.mapM (fun gid => stations.find? (fun s => s.id == gid)) = some gl) :
    ∃ E C, getKnownLineKnowledge gs stations = some (E, C) ∧
      (∀ l, l ∈ C ↔ ∃ g ∈ gl, l ∈ g.lines ∧ l ∈ sol.lines) ∧
      (∀ l, l ∈ E ↔ ∃ g ∈ gl, l ∈ g.lines ∧ l ∉ sol.lines) ∧
      Disjoint E C ∧
      (∀ gs₂ : GameState, gs₂.solutionId = gs.solutionId → gs₂.guesses.Perm gs.guesses →
        getKnownLineKnowledge gs₂ stations = getKnownLineKnowledge gs stations) := by
  have heq : getKnownLineKnowledge gs stations =
      some (gl.foldl (knowledgeFold sol.lines) (∅, ∅)) := by
    unfold getKnownLineKnowledge
    rw [hsol, hgl]
  refine ⟨(gl.foldl (knowledgeFold sol.lines) (∅, ∅)).1,
    (gl.foldl (knowledgeFold sol.lines) (∅, ∅)).2, heq, ?_, ?_, ?_, ?_⟩
  · intro l
    have h := (mem_knowledgeFoldl sol.lines gl (∅, ∅) l).1
    simpa using h
  · intro l
    have h := (mem_knowledgeFoldl sol.lines gl (∅, ∅) l).2
    simpa using h
  · rw [Finset.disjoint_left]
    intro l hE hC
    have h1 := (mem_knowledgeFoldl sol.lines gl (∅, ∅) l).1
    have h2 := (mem_knowledgeFoldl sol.lines gl (∅, ∅) l).2
    obtain ⟨g1, hg1, hl1, hnot⟩ : ∃ g ∈ gl, l ∈ g.lines ∧ l ∉ sol.lines := by
      have := h2.mp hE
      simpa using this
    obtain ⟨g2, hg2, hl2, hin⟩ : ∃ g ∈ gl, l ∈ g.lines ∧ l ∈ sol.lines := by
      have := h1.mp hC
      simpa using this
    exact hnot hin
  · intro gs₂ hsol₂ hperm
    obtain ⟨gl₂, hgl₂, hperm₂⟩ := mapM_perm_some _ hperm hgl
    have heq₂ : getKnownLineKnowledge gs₂ stations =
        some (gl₂.foldl (knowledgeFold sol.lines) (∅, ∅)) := by
      unfold getKnownLineKnowledge
      rw [hsol₂, hsol, hgl₂]
    rw [heq₂, heq]
    have e1 : (gl₂.foldl (knowledgeFold sol.lines) (∅, ∅)).1 =
        (gl.foldl (knowledgeFold sol.lines) (∅, ∅)).1 := by
      apply Finset.ext
      intro l
      rw [(mem_knowledgeFoldl sol.lines gl₂ (∅, ∅) l).2,
        (mem_knowledgeFoldl sol.lines gl (∅, ∅) l).2]
      simp only [Finset.not_mem_empty, false_or]
      constructor
      · rintro ⟨g, hg, hl⟩
        exact ⟨g, hperm₂.mem_iff.mp hg, hl⟩
      · rintro ⟨g, hg, hl⟩
        exact ⟨g, hperm₂.mem_iff.mpr hg, hl⟩
    have e2 : (gl₂.foldl (knowledgeFold sol.lines) (∅, ∅)).2 =
        (gl.foldl (knowledgeFold sol.lines) (∅, ∅)).2 := by
      apply Finset.ext
      intro l
      rw [(mem_knowledgeFoldl sol.lines gl₂ (∅, ∅) l).1,
        (mem_knowledgeFoldl sol.lines gl (∅, ∅) l).1]
      simp only [Finset.not_mem_empty, false_or]
      constructor
      · rintro ⟨g, hg, hl⟩
        exact ⟨g, hperm₂.mem_iff.mp hg, hl⟩
      · rintro ⟨g, hg, hl⟩
        exact ⟨g, hperm₂.mem_iff.mpr hg, hl⟩
    rw [Prod.ext_iff.mpr ⟨e1, e2⟩]

/-- Closed witness for C6: with solution Sé (lines 1 and 3) and the single
guess Ana Rosa (lines 1 and 2), line 1 is confirmed and line 2 eliminated,
and line 2 is not confirmed. -/
theorem knowledge_spec_witness :
    ∃ E C, getKnownLineKnowledge gsDup rosterW = some (E, C) ∧
      ("1") ∈ C ∧ ("2") ∈ E ∧ ¬ ("2") ∈ C := by
  obtain ⟨E, C, heq, hC, hE, hdisj, hperm⟩ :=
    knowledge_spec gsDup rosterW stSe [stAna] (by decide) (by decide)
  refine ⟨E, C, heq, ?_, ?_, ?_⟩
  · exact (hC ("1")).mpr ⟨stAna, by simp, by decide, by decide⟩
  · exact (hE ("2")).mpr ⟨stAna, by simp, by decide, by decide⟩
  · intro h
    obtain ⟨g, hg, hl, hin⟩ := (hC ("2")).mp h
    have hga : g = stAna := by simpa using hg
    subst hga
    exact absurd hin (by decide)

theorem mem_nextCharStep (pfx : List Char) (A : Finset Char) (nm : List Char) (c : Char) :
    c ∈ nextCharStep pfx A nm ↔ c ∈ A ∨ ∃ rest, nm = pfx ++ c :: rest := by
  unfold nextCharStep
  by_cases h0 : pfx.length = 0
  · have hpe : pfx = [] := List.length_eq_zero.mp h0
    subst hpe
    simp only [List.length_nil]
    rw [if_pos trivial]
    cases nm with
    | nil => simp
    | cons a t =>
      simp only [Finset.mem_insert, List.nil_append]
      constructor
      · rintro (rfl | hA)
        · exact Or.inr ⟨t, rfl⟩
        · exact Or.inl hA
      · rintro (hA | ⟨rest, heq⟩)
        · exact Or.inr hA
        · cases heq
          exact Or.inl rfl
  · rw [if_neg h0]
    by_cases hp : pfx.isPrefixOf nm
    · rw [if_pos hp]
      obtain ⟨t, rfl⟩ : pfx <+: nm := List.isPrefixOf_iff_prefix.mp hp
      by_cases hlt : pfx.length < (pfx ++ t).length
      · rw [if_pos hlt, List.drop_left]
        cases t with
        | nil => simp at hlt
        | cons a t2 =>
          simp only [Finset.mem_insert]
          constructor
          · rintro (rfl | hA)
            · exact Or.inr ⟨t2, rfl⟩
            · exact Or.inl hA
          · rintro (hA | ⟨rest, heq⟩)
            · exact Or.inr hA
            · have h2 : a :: t2 = c :: rest := List.append_cancel_left heq
              cases h2
              exact Or.inl rfl
      · rw [if_neg hlt]
        constructor
        · exact Or.inl
        · rintro (hA | ⟨rest, heq⟩)
          · exact hA
          · exfalso
            have h2 : t = c :: rest := List.append_cancel_left heq
            subst h2
            apply hlt
            simp
    · rw [if_neg hp]
      constructor
      · exact Or.inl
      · rintro (hA | ⟨rest, rfl⟩)
        · exact hA
        · exfalso
          apply hp
          rw [List.isPrefixOf_iff_prefix]
          exact ⟨c :: rest, rfl⟩

theorem mem_stationsFold (pfx : List Char) (stations : List Station) (A : Finset Char)
    (c : Char) :
    c ∈ stations.foldl (fun a s => nextCharStep pfx a (normalize s.name)) A ↔
      c ∈ A ∨ ∃ s ∈ stations, ∃ rest, normalize s.name = pfx ++ c :: rest := by
  induction stations generalizing A with
  | nil => simp
  | cons s ss ih =>
    simp only [List.foldl_cons]
    rw [ih, mem_nextCharStep]
    simp only [List.mem_cons]
    constructor
    · rintro ((hA | ⟨rest, h⟩) | ⟨s2, hs2, rest, h⟩)
      · exact Or.inl hA
      · exact Or.inr ⟨s, Or.inl rfl, rest, h⟩
      · exact Or.inr ⟨s2, Or.inr hs2, rest, h⟩
    · rintro (hA | ⟨s2, rfl | hs2, rest, h⟩)
      · exact Or.inl (Or.inl hA)
      · exact Or.inl (Or.inr ⟨rest, h⟩)
      · exact Or.inr ⟨s2, hs2, rest, h⟩

theorem mem_keywordsFold (pfx : List Char) (kws : List (List Char)) (A : Finset Char)
    (c : Char) :
    c ∈ kws.foldl (fun a kw =>
        let nkw := normalize kw
        if nkw = [] then a else nextCharStep pfx a nkw) A ↔
      c ∈ A ∨ ∃ kw ∈ kws, ∃ rest, normalize kw = pfx ++ c :: rest := by
  induction kws generalizing A with
  | nil => simp
  | cons kw kws ih =>
    simp only [List.foldl_cons]
    by_cases hk : normalize kw = []
    · rw [if_pos hk, ih]
      simp only [List.mem_cons]
      constructor
      · rintro (hA | ⟨kw2, hkw2, rest, h⟩)
        · exact Or.inl hA
        · exact Or.inr ⟨kw2, Or.inr hkw2, rest, h⟩
      · rintro (hA | ⟨kw2, rfl | hkw2, rest, h⟩)
        · exact Or.inl hA
        · rw [hk] at h
          exact absurd h (by simp)
        · exact Or.inr ⟨kw2, hkw2, rest, h⟩
    · rw [if_neg hk, ih, mem_nextCharStep]
      simp only [List.mem_cons]
      constructor
      · rintro ((hA | ⟨rest, h⟩) | ⟨kw2, hkw2, rest, h⟩)
        · exact Or.inl hA
        · exact Or.inr ⟨kw, Or.inl rfl, rest, h⟩
        · exact Or.inr ⟨kw2, Or.inr hkw2, rest, h⟩
      · rintro (hA | ⟨kw2, rfl | hkw2, rest, h⟩)
        · exact Or.inl (Or.inl hA)
        · exact Or.inl (Or.inr ⟨rest, h⟩)
        · exact Or.inr ⟨kw2, hkw2, rest, h⟩

/-- C7: `nextAllowedChars` returns exactly the characters that continue
the normalized trimmed input as a strict prefix of some normalized roster
name or keyword; with an empty input this is the set of first characters
of the roster names, with no extending name the set is empty (the filter
never force-enables a character), and on the roster Sé, São Paulo with
empty input the set is exactly the single character s. -/
theorem nextAllowed_spec (raw : List Char) (stations : List Station)
    (keywords : List (List Char)) :
    (∀ c, c ∈ nextAllowedChars raw stations keywords ↔
      ∃ nm ∈ stations.map (fun s => s.name) ++ keywords, ∃ rest,
        normalize nm = normalize (jsTrim raw) ++ c :: rest) ∧
    ((∀ c, ¬ ∃ nm ∈ stations.map (fun s => s.name) ++ keywords, ∃ rest,
        normalize nm = normalize (jsTrim raw) ++ c :: rest) →
      nextAllowedChars raw stations keywords = ∅) ∧
    nextAllowedChars [] [stSe, stSaoPaulo] [] = {'s'} := by
  have hmain : ∀ c, c ∈ nextAllowedChars raw stations keywords ↔
      ∃ nm ∈ stations.map (fun s => s.name) ++ keywords, ∃ rest,
        normalize nm = normalize (jsTrim raw) ++ c :: rest := by
    intro c
    unfold nextAllowedChars
    rw [mem_keywordsFold, mem_stationsFold]
    simp only [Finset.not_mem_empty, false_or, List.mem_append, List.mem_map]
    constructor
    · rintro (⟨s, hs, rest, h⟩ | ⟨kw, hkw, rest, h⟩)
      · exact ⟨s.name, Or.inl ⟨s, hs, rfl⟩, rest, h⟩
      · exact ⟨kw, Or.inr hkw, rest, h⟩
    · rintro ⟨nm, hnm | hnm, rest, h⟩
      · obtain ⟨s, hs, rfl⟩ := hnm
        exact Or.inl ⟨s, hs, rest, h⟩
      · exact Or.inr ⟨nm, hnm, rest, h⟩
  refine ⟨hmain, ?_, by decide⟩
  intro hnone
  apply Finset.eq_empty_of_forall_not_mem
  intro c hc
  exact hnone c ((hmain c).mp hc)

/-- Closed witness for C7: on the roster Sé, São Paulo with empty input,
the character s is allowed, produced by the name Sé. -/
theorem nextAllowed_spec_witness :
    's' ∈ nextAllowedChars [] [stSe, stSaoPaulo] [] := by
  have h := (nextAllowed_spec [] [stSe, stSaoPaulo] []).1 's'
  exact h.mpr ⟨("Sé").toList, by decide, ⟨['e'], by decide⟩⟩

/-- C10: over the singleton roster Sé, the input equal to the
diacritics-stripped form of the unique station name (occurring verbatim in
no name) is rejected by guess resolution as not found — resolution only
lowercases — while the predictive filter and the candidate search, which
both strip diacritics, accept that same input: the filter allows typing
each of its characters and the search returns the station. -/
theorem submit_filter_asymmetry :
    resolveGuess (("se").toList) [stSe] = none ∧
    onSubmitGuess (("se").toList) [stSe] gsSe freshStats =
      (gsSe, freshStats, Signal.notFound) ∧
    normalize stSe.name = ("se").toList ∧
    listContains (jsToLower stSe.name) (jsToLower (jsTrim (("se").toList))) = false ∧
    's' ∈ nextAllowedChars [] [stSe] [] ∧
    'e' ∈ nextAllowedChars (("s").toList) [stSe] [] ∧
    searchCandidates (("se").toList) [stSe] LINES = [stSe] := by
  exact ⟨by decide, by decide, by decide, by decide, by decide, by decide, by decide⟩

end Metrodle
